import Mathlib

/-!
Shallow embedding of the supercharge package: a converter from 4096-byte
Atari ROM images to a WAV sample stream encoding the Supercharger tape
protocol.  Go byte arithmetic is modelled over the natural numbers with
explicit reduction mod 256; float64 arithmetic on the fixed constants is
modelled over the rationals (for durations and counts) and over the reals
(for the sine waveform), with conversion to integer modelled as floor,
matching the truncation toward zero that Go performs on the non-negative
values arising here.
-/

namespace Supercharge

/-- Values used during generation of the wav file (source constants). -/
def startToneSeconds : ℚ := 1/10

def headerToneSeconds : ℚ := 1/2

def endToneSeconds : ℚ := 1/2

/-- Length of a single cycle of the start tone in bytes. -/
def startToneCycle : ℕ := 51

/-- Length of a single cycle of the zero-bit tone in bytes. -/
def zeroToneCycle : ℕ := 6

/-- Length of a single cycle of the one-bit tone in bytes. -/
def oneToneCycle : ℕ := 10

/-- Volume of the start tone (0.98 in the source). -/
noncomputable def startToneVolume : ℝ := 49/50

/-- Volume of the zero-bit tone (0.98 in the source). -/
noncomputable def zeroToneVolume : ℝ := 49/50

/-- Volume of the one-bit tone (0.98 in the source). -/
noncomputable def oneToneVolume : ℝ := 49/50

/-- Sample rate of the wav file. -/
def sampleRate : ℕ := 44100

/-- Sample i of a sine wave of the given cycle length: the Go code computes
y = (sin(2*pi/length*i)*volume + 1) * 128 in float64 and converts to byte,
truncating toward zero; the value is non-negative here, so this is floor. -/
noncomputable def toneSample (length : ℕ) (i : ℕ) (volume : ℝ) : ℕ :=
  (⌊(Real.sin (2 * Real.pi / (length : ℝ) * (i : ℝ)) * volume + 1) * 128⌋).toNat

/-- Generate a sine wave of the given length (function tone in the source). -/
noncomputable def tone (length : ℕ) (volume : ℝ) : List ℕ :=
  (List.range length).map fun i => toneSample length i volume

/-- The precomputed waveform for a zero bit (field zeroBit of bitPacker). -/
noncomputable def zeroBit : List ℕ := tone zeroToneCycle zeroToneVolume

/-- The precomputed waveform for a one bit (field oneBit of bitPacker). -/
noncomputable def oneBit : List ℕ := tone oneToneCycle oneToneVolume

/-- bytesPerSecond field of bitPacker: hz / (zeroToneCycle + oneToneCycle) / 4
in uint32 (truncating) division, with hz = 44100. -/
def bytesPerSecond : ℕ := sampleRate / (zeroToneCycle + oneToneCycle) / 4

/-- One iteration per remaining bit of writeByte: test the top bit of the
current byte value, emit the corresponding waveform, shift left (as a byte,
so mod 256) and recurse. -/
noncomputable def writeByteAux : ℕ → ℕ → List ℕ
  | _, 0 => []
  | b, n + 1 =>
      (if b &&& 0x80 = 0x80 then oneBit else zeroBit)
        ++ writeByteAux ((b <<< 1) % 256) n

/-- Method writeByte of bitPacker: emit the waveforms for the 8 bits of b,
most significant bit first. -/
noncomputable def writeByte (b : ℕ) : List ℕ := writeByteAux (b % 256) 8

/-- Method writeByteDuration of bitPacker.  The count is
int(duration * bytesPerSecond); the body of the loop calls
writeByte(0x55) regardless of the argument b, exactly as the source does. -/
noncomputable def writeByteDuration (b : ℕ) (duration : ℚ) : List ℕ :=
  List.flatten
    (List.replicate (⌊duration * (bytesPerSecond : ℚ)⌋.toNat) (writeByte 0x55))

/-- Go byte subtraction a - b: both operands reduced to byte range, result
wrapped mod 256.  The natural subtraction never truncates because
a % 256 + 256 is at least 256 while b % 256 is below 256. -/
def bsub (a b : ℕ) : ℕ := (a % 256 + 256 - b % 256) % 256

/-- Low byte of the execution start address: rom[len(rom)-4]. -/
def addressLow (rom : List ℕ) : ℕ := rom.getD (rom.length - 4) 0

/-- High byte of the execution start address: rom[len(rom)-3]. -/
def addressHigh (rom : List ℕ) : ℕ := rom.getD (rom.length - 3) 0

/-- Bank configuration constant written to the header. -/
def bankConfig : ℕ := 0x1d

/-- Block count header byte: byte(len(rom)/256). -/
def blockCount (rom : List ℕ) : ℕ := rom.length / 256 % 256

/-- Multiload index constant written to the header. -/
def multiload : ℕ := 0

/-- Low byte of the progress-bar speed constant. -/
def progressSpeedLow : ℕ := 0xc3

/-- High byte of the progress-bar speed constant. -/
def progressSpeedHigh : ℕ := 0x01

/-- Header checksum: 0x55 minus the other seven header bytes, every
subtraction performed in byte (mod 256) arithmetic, in source order. -/
def headerChecksum (rom : List ℕ) : ℕ :=
  bsub (bsub (bsub (bsub (bsub (bsub (bsub 0x55
    (addressLow rom)) (addressHigh rom)) bankConfig) (blockCount rom))
    multiload) progressSpeedLow) progressSpeedHigh

/-- The 8 header bytes in the order Convert writes them. -/
def headerBytes (rom : List ℕ) : List ℕ :=
  [addressLow rom, addressHigh rom, bankConfig, blockCount rom,
   headerChecksum rom, multiload, progressSpeedLow, progressSpeedHigh]

/-- Page number for a block: page = block*4 + 1 in byte arithmetic, with
0x1f subtracted (as a byte) when the result exceeds 0x1f. -/
def pageOf (block : ℕ) : ℕ :=
  let p := (block * 4 + 1) % 256
  if 0x1f < p then bsub p 0x1f else p

/-- The 256 data bytes of a block: rom[block*256 : block*256+256]. -/
def blockData (rom : List ℕ) (block : ℕ) : List ℕ :=
  (rom.drop (block * 256)).take 256

/-- Per-block checksum: 0x55 minus the page number minus each of the 256
block bytes, all in byte (mod 256) arithmetic. -/
def blockChecksum (rom : List ℕ) (block : ℕ) : ℕ :=
  List.foldl bsub (bsub 0x55 (pageOf block)) (blockData rom block)

/-- Little-endian serialization of a 16-bit field: byte(n), byte(n >> 8). -/
def le16 (n : ℕ) : List ℕ := [n % 256, n / 2 ^ 8 % 256]

/-- Little-endian serialization of a 32-bit field:
byte(n), byte(n >> 8), byte(n >> 16), byte(n >> 24). -/
def le32 (n : ℕ) : List ℕ :=
  [n % 256, n / 2 ^ 8 % 256, n / 2 ^ 16 % 256, n / 2 ^ 24 % 256]

/-- Method Write of the wav type: each incoming byte is appended once per
channel. -/
def wavWrite (channels : ℕ) (stream : List ℕ) : List ℕ :=
  stream.flatMap fun b => List.replicate channels b

/-- Method Bytes of the wav type: serialize the fmt sub-chunk (format,
channels, sample rate twice, block align = channels AND depth, depth),
wrap it with the data in a WAVE chunk, and prefix the RIFF tag and the
chunk length.  Tag strings appear as their ASCII bytes. -/
def wavBytes (format channels hz depth : ℕ) (data : List ℕ) : List ℕ :=
  let fmtSubChunk : List ℕ :=
    le16 format ++ le16 channels ++ le32 hz ++ le32 hz
      ++ le16 (channels &&& depth) ++ le16 depth
  let waveChunk : List ℕ :=
    [0x57, 0x41, 0x56, 0x45] ++ [0x66, 0x6d, 0x74, 0x20]
      ++ le32 fmtSubChunk.length ++ fmtSubChunk
      ++ [0x64, 0x61, 0x74, 0x61] ++ le32 data.length ++ data
  [0x52, 0x49, 0x46, 0x46] ++ le32 waveChunk.length ++ waveChunk

/-- Number of start-tone cycles written:
int(startToneSeconds * sampleRate / startToneCycle). -/
def startCount : ℕ :=
  (⌊startToneSeconds * (sampleRate : ℚ) / (startToneCycle : ℚ)⌋).toNat

/-- The full PCM sample stream Convert passes to the wav Write method:
start tone cycles, calibration run, sync byte 0x54, the 8 header bytes,
the data blocks (page, checksum, 256 data bytes each), and the trailing
run, in source order. -/
noncomputable def convertStream (rom : List ℕ) : List ℕ :=
  List.flatten (List.replicate startCount (tone startToneCycle startToneVolume))
    ++ writeByteDuration 0x55 headerToneSeconds
    ++ writeByte 0x54
    ++ (headerBytes rom).flatMap writeByte
    ++ (List.range (blockCount rom)).flatMap (fun b =>
          writeByte (pageOf b) ++ writeByte (blockChecksum rom b)
            ++ (blockData rom b).flatMap writeByte)
    ++ writeByteDuration 0x00 endToneSeconds

/-- The sample bytes buffered in the wav data field after Convert runs:
the stream replicated per channel, with channel count 1. -/
noncomputable def convertData (rom : List ℕ) : List ℕ :=
  wavWrite 1 (convertStream rom)

/-- The complete container file produced by Convert: format 1, channels 1,
sample rate 44100, depth 8. -/
noncomputable def convertBytes (rom : List ℕ) : List ℕ :=
  wavBytes 1 1 sampleRate 8 (convertData rom)

/-- The spec description of tone synthesis, stated with rounding: byte i of
the table is round((sin(2 pi i / cycleLength) * volume + 1) * 128).  Kept
as a separate definition so it can be compared with the tone function
translated from the source. -/
noncomputable def toneSpecRound (length : ℕ) (volume : ℝ) : List ℤ :=
  (List.range length).map fun (i : ℕ) =>
    round ((Real.sin (2 * Real.pi * (i : ℝ) / (length : ℝ)) * volume + 1) * 128)

/-- The fmt sub-chunk payload of a serialized container: the 16 bytes at
offsets 20 to 35. -/
def fmtChunk (bs : List ℕ) : List ℕ := (bs.drop 20).take 16

/-- Decoder for the fmt sub-chunk of a produced container, following the
spec description of the format: little-endian format code, channel count,
sample rate and bit depth read from their fixed offsets. -/
def parseFmt (bs : List ℕ) : ℕ × ℕ × ℕ × ℕ :=
  let f := fmtChunk bs
  (f.getD 0 0 + 2 ^ 8 * f.getD 1 0,
   f.getD 2 0 + 2 ^ 8 * f.getD 3 0,
   f.getD 4 0 + 2 ^ 8 * f.getD 5 0 + 2 ^ 16 * f.getD 6 0 + 2 ^ 24 * f.getD 7 0,
   f.getD 14 0 + 2 ^ 8 * f.getD 15 0)

/-- A concrete all-zero 4096-byte ROM, used as a test input. -/
def romZero : List ℕ := List.replicate 4096 0

theorem tone_length (l : ℕ) (v : ℝ) : (tone l v).length = l := by
  simp [tone]

theorem zeroBit_length : zeroBit.length = 6 := by
  simp [zeroBit, tone_length, zeroToneCycle]

theorem oneBit_length : oneBit.length = 10 := by
  simp [oneBit, tone_length, oneToneCycle]

theorem bytesPerSecond_eq : bytesPerSecond = 689 := by
  decide

theorem flatMapCongr {α β : Type} {l : List α} {f g : α → List β}
    (h : ∀ a ∈ l, f a = g a) : l.flatMap f = l.flatMap g := by
  induction l with
  | nil => rfl
  | cons x xs ih =>
      rw [List.flatMap_cons, List.flatMap_cons, h x (by simp),
        ih fun a ha => h a (by simp [ha])]

theorem writeByteAux_eq (n b : ℕ) :
    writeByteAux b n =
      (List.range n).flatMap
        fun i => if (b * 2 ^ i % 256).testBit 7 then oneBit else zeroBit := by
  induction n generalizing b with
  | zero => simp [writeByteAux]
  | succ n ih =>
      rw [writeByteAux, List.range_succ_eq_map, List.flatMap_cons,
        List.flatMap_map, ih]
      have harg : ∀ i : ℕ,
          (b <<< 1) % 256 * 2 ^ i % 256 = b * 2 ^ (Nat.succ i) % 256 := by
        intro i
        rw [Nat.mod_mul_mod, Nat.shiftLeft_eq]
        congr 1
        rw [Nat.succ_eq_add_one, pow_succ]
        ring
      have hand : (b &&& 0x80 = 0x80) = (b.testBit 7 = true) := by
        have h := Nat.and_two_pow b 7
        norm_num at h
        rw [h]
        cases b.testBit 7 <;> simp
      have hhead : (b * 2 ^ 0 % 256).testBit 7 = b.testBit 7 := by
        rw [pow_zero, mul_one, show (256 : ℕ) = 2 ^ 8 by norm_num,
          Nat.testBit_mod_two_pow]
        simp
      congr 1
      · rw [hhead]
        simp only [hand]
      · exact flatMapCongr fun i _ => by rw [harg i]

theorem writeByte_eq (b : ℕ) :
    writeByte b =
      (List.range 8).flatMap
        fun i => if (b * 2 ^ i % 256).testBit 7 then oneBit else zeroBit := by
  rw [writeByte, writeByteAux_eq]
  exact flatMapCongr fun i _ => by rw [Nat.mod_mul_mod]

/-- C7: writeByte processes the 8 bits of b most-significant-bit first,
emitting the full one-tone table (10 samples) for a 1 bit and the full
zero-tone table (6 samples) for a 0 bit, and nothing else. -/
theorem writeByte_msb_first (b : ℕ) (_hb : b < 256) :
    writeByte b =
      (List.range 8).flatMap
        (fun i => if b.testBit (7 - i) then oneBit else zeroBit) ∧
      oneBit.length = 10 ∧ zeroBit.length = 6 := by
  refine ⟨?_, oneBit_length, zeroBit_length⟩
  rw [writeByte_eq]
  refine flatMapCongr fun i hi => ?_
  have hi8 : i < 8 := by simpa using List.mem_range.mp hi
  have : (b * 2 ^ i % 256).testBit 7 = b.testBit (7 - i) := by
    rw [show (256 : ℕ) = 2 ^ 8 by norm_num, Nat.testBit_mod_two_pow,
      ← Nat.shiftLeft_eq, Nat.testBit_shiftLeft]
    have h7 : (7 : ℕ) < 8 := by norm_num
    have hge : 7 ≥ i := by omega
    simp [h7, hge]
  rw [this]

theorem writeByte_msb_first_witness :
    (85 : ℕ) < 256 ∧
      (writeByte 85 =
        (List.range 8).flatMap
          (fun i => if (85 : ℕ).testBit (7 - i) then oneBit else zeroBit) ∧
        oneBit.length = 10 ∧ zeroBit.length = 6) :=
  ⟨by norm_num, writeByte_msb_first 85 (by norm_num)⟩

theorem writeByte_0x55_shape :
    writeByte 0x55 =
      zeroBit ++ oneBit ++ zeroBit ++ oneBit ++ zeroBit ++ oneBit
        ++ zeroBit ++ oneBit := by
  rw [writeByte_eq]
  simp only [show List.range 8 = [0, 1, 2, 3, 4, 5, 6, 7] from rfl,
    List.flatMap_cons, List.flatMap_nil]
  simp +decide [List.append_assoc]

theorem writeByte_0x00_shape :
    writeByte 0x00 =
      zeroBit ++ zeroBit ++ zeroBit ++ zeroBit ++ zeroBit ++ zeroBit
        ++ zeroBit ++ zeroBit := by
  rw [writeByte_eq]
  simp only [show List.range 8 = [0, 1, 2, 3, 4, 5, 6, 7] from rfl,
    List.flatMap_cons, List.flatMap_nil]
  simp +decide [List.append_assoc]

theorem writeByte_0x55_length : (writeByte 0x55).length = 64 := by
  simp [writeByte_0x55_shape, zeroBit_length, oneBit_length]

theorem writeByte_0x00_length : (writeByte 0x00).length = 48 := by
  simp [writeByte_0x00_shape, zeroBit_length]

/-- C1 (code bug): the trailer call writeByteDuration(0x00, endToneSeconds)
computes the claimed count of 344 = floor(0.5 * 689) iterations, but each
iteration emits the encoding of 0x55, not of the argument 0x00, so the
emitted stream is not 344 repetitions of the encoding of 0. -/
theorem writeByteDuration_ignores_argument :
    (⌊endToneSeconds * (bytesPerSecond : ℚ)⌋.toNat = 344) ∧
      writeByteDuration 0x00 endToneSeconds =
        List.flatten (List.replicate 344 (writeByte 0x55)) ∧
      writeByteDuration 0x00 endToneSeconds ≠
        List.flatten (List.replicate 344 (writeByte 0x00)) := by
  have hcount : (⌊endToneSeconds * (bytesPerSecond : ℚ)⌋.toNat = 344) := by
    rw [bytesPerSecond_eq, endToneSeconds]
    norm_num
    rfl
  refine ⟨hcount, ?_, ?_⟩
  · rw [writeByteDuration, hcount]
  · rw [writeByteDuration, hcount]
    intro h
    have h1 := congrArg List.length h
    simp only [List.length_flatten, List.map_replicate, List.sum_replicate,
      writeByte_0x55_length, writeByte_0x00_length, smul_eq_mul] at h1
    omega

/-- C6: the page number for block b in [0,16) is b*4 + 1, with 0x1f
subtracted exactly once when that value exceeds 0x1f; block 0 gets page 1,
block 7 gets page 29 and block 8 gets page 2. -/
theorem page_numbering (b : ℕ) (hb : b < 16) :
    pageOf b =
      (if 0x1f < b * 4 + 1 then b * 4 + 1 - 0x1f else b * 4 + 1) ∧
      pageOf 0 = 1 ∧ pageOf 7 = 29 ∧ pageOf 8 = 2 := by
  refine ⟨?_, by decide, by decide, by decide⟩
  have h1 : b * 4 + 1 < 256 := by omega
  rw [pageOf]
  simp only [Nat.mod_eq_of_lt h1, bsub]
  split <;> omega

theorem page_numbering_witness :
    (8 : ℕ) < 16 ∧
      (pageOf 8 =
        (if 0x1f < 8 * 4 + 1 then 8 * 4 + 1 - 0x1f else 8 * 4 + 1) ∧
        pageOf 0 = 1 ∧ pageOf 7 = 29 ∧ pageOf 8 = 2) :=
  ⟨by norm_num, page_numbering 8 (by norm_num)⟩

theorem romZero_length : romZero.length = 4096 := List.length_replicate 4096 0

theorem romZero_bytes : ∀ x ∈ romZero, x < 256 := by
  intro x hx
  rw [List.eq_of_mem_replicate hx]
  norm_num

theorem bsub_lt (a b : ℕ) : bsub a b < 256 :=
  Nat.mod_lt _ (by norm_num)

theorem foldl_bsub_lt (l : List ℕ) (acc : ℕ) (h : acc < 256) :
    List.foldl bsub acc l < 256 := by
  induction l generalizing acc with
  | nil => exact h
  | cons x xs ih => exact ih _ (bsub_lt _ _)

theorem bsub_emod (a b : ℕ) :
    ((bsub a b : ℕ) : ℤ) % 256 = ((a : ℤ) - (b : ℤ)) % 256 := by
  simp only [bsub]
  omega

theorem foldl_bsub_emod (l : List ℕ) (acc : ℕ) :
    ((List.foldl bsub acc l : ℕ) : ℤ) % 256 =
      ((acc : ℤ) - (l.sum : ℤ)) % 256 := by
  induction l generalizing acc with
  | nil => simp
  | cons x xs ih =>
      rw [List.foldl_cons, ih]
      have h := bsub_emod acc x
      simp only [List.sum_cons]
      push_cast
      omega

theorem pageOf_lt (b : ℕ) : pageOf b < 256 := by
  rw [pageOf]
  split
  · exact bsub_lt _ _
  · exact Nat.mod_lt _ (by norm_num)

theorem blockChecksum_emod (rom : List ℕ) (b : ℕ) :
    ((blockChecksum rom b : ℕ) : ℤ) =
      ((0x55 : ℤ) - (pageOf b : ℤ) - ((blockData rom b).sum : ℤ)) % 256 := by
  have h1 : blockChecksum rom b < 256 := foldl_bsub_lt _ _ (bsub_lt _ _)
  have h2 := foldl_bsub_emod (blockData rom b) (bsub 0x55 (pageOf b))
  have h3 := bsub_emod 0x55 (pageOf b)
  rw [blockChecksum] at h1 ⊢
  omega

/-- C3: for every 4096-byte ROM and block index below the block count, the
per-block checksum equals 0x55 minus the page minus the sum of the 256
block bytes, mod 256, so page + block bytes + checksum sum to 0x55
mod 256. -/
theorem block_checksum_sums_to_0x55 (rom : List ℕ) (b : ℕ)
    (_hlen : rom.length = 4096) (_hbytes : ∀ x ∈ rom, x < 256)
    (_hb : b < blockCount rom) :
    ((blockChecksum rom b : ℕ) : ℤ) =
      ((0x55 : ℤ) - (pageOf b : ℤ) - ((blockData rom b).sum : ℤ)) % 256 ∧
      (pageOf b + (blockData rom b).sum + blockChecksum rom b) % 256 = 0x55 := by
  refine ⟨blockChecksum_emod rom b, ?_⟩
  have h1 := blockChecksum_emod rom b
  have hp : pageOf b < 256 := pageOf_lt b
  have hc : blockChecksum rom b < 256 := foldl_bsub_lt _ _ (bsub_lt _ _)
  rw [blockChecksum] at hc
  omega

theorem block_checksum_sums_to_0x55_witness :
    romZero.length = 4096 ∧
      (((blockChecksum romZero 0 : ℕ) : ℤ) =
        ((0x55 : ℤ) - (pageOf 0 : ℤ)
          - ((blockData romZero 0).sum : ℤ)) % 256 ∧
       (pageOf 0 + (blockData romZero 0).sum
          + blockChecksum romZero 0) % 256 = 0x55) :=
  ⟨romZero_length,
   block_checksum_sums_to_0x55 romZero 0 romZero_length romZero_bytes
     (by rw [blockCount, romZero_length]; norm_num)⟩

/-- C4: for every 4096-byte ROM of genuine bytes, the 8 header bytes sum
to 0x55 mod 256; the checksum byte is 0x55 minus each of the other seven
bytes with 8-bit wraparound. -/
theorem header_sums_to_0x55 (rom : List ℕ)
    (hlen : rom.length = 4096) (hbytes : ∀ x ∈ rom, x < 256) :
    (headerBytes rom).sum % 256 = 0x55 := by
  have hAL : addressLow rom < 256 := by
    rw [addressLow, List.getD_eq_getElem rom 0 (by omega)]
    exact hbytes _ (List.getElem_mem _)
  have hAH : addressHigh rom < 256 := by
    rw [addressHigh, List.getD_eq_getElem rom 0 (by omega)]
    exact hbytes _ (List.getElem_mem _)
  have hBC : blockCount rom < 256 := Nat.mod_lt _ (by norm_num)
  simp only [headerBytes, headerChecksum, bankConfig, multiload,
    progressSpeedLow, progressSpeedHigh, bsub, List.sum_cons,
    List.sum_nil]
  omega

theorem header_sums_to_0x55_witness :
    romZero.length = 4096 ∧
      (headerBytes romZero).sum % 256 = 0x55 :=
  ⟨romZero_length, header_sums_to_0x55 romZero romZero_length romZero_bytes⟩

/-- C5: for every 4096-byte ROM the 8 header bytes, in the order Convert
writes them, are addressLow = rom[4092], addressHigh = rom[4093],
bankConfig = 0x1d, blockCount = 16, the checksum, multiload = 0,
progressSpeedLow = 0xc3 and progressSpeedHigh = 0x01. -/
theorem header_bytes_order (rom : List ℕ) (hlen : rom.length = 4096) :
    headerBytes rom =
      [rom.getD 4092 0, rom.getD 4093 0, 0x1d, 16, headerChecksum rom,
       0, 0xc3, 0x01] := by
  norm_num [headerBytes, addressLow, addressHigh, blockCount, bankConfig,
    multiload, progressSpeedLow, progressSpeedHigh, hlen]

theorem header_bytes_order_witness :
    romZero.length = 4096 ∧
      headerBytes romZero =
        [romZero.getD 4092 0, romZero.getD 4093 0, 0x1d, 16,
         headerChecksum romZero, 0, 0xc3, 0x01] :=
  ⟨romZero_length, header_bytes_order romZero romZero_length⟩

theorem wavBytes_length (f c h d : ℕ) (data : List ℕ) :
    (wavBytes f c h d data).length = 44 + data.length := by
  simp [wavBytes, le16, le32]
  omega

theorem wavBytes_fmtChunk (f c h d : ℕ) (data : List ℕ) :
    fmtChunk (wavBytes f c h d data) =
      le16 f ++ le16 c ++ le32 h ++ le32 h ++ le16 (c &&& d) ++ le16 d := by
  simp [fmtChunk, wavBytes, le16, le32, List.append_assoc]

theorem convertBytes_fmtChunk (rom : List ℕ) :
    fmtChunk (convertBytes rom) =
      [1, 0, 1, 0, 0x44, 0xac, 0, 0, 0x44, 0xac, 0, 0, 0, 0, 8, 0] := by
  rw [convertBytes, wavBytes_fmtChunk]
  decide

/-- C2 (amended): for every 4096-byte ROM the container file built by
Convert is 36 bytes of RIFF/WAVE/fmt framing, plus the 8-byte data
sub-chunk header, plus the buffered samples; the claimed total of
44 + 8 + samples double counts the data sub-chunk header. -/
theorem convert_length_eq_44_plus_samples (rom : List ℕ)
    (_hlen : rom.length = 4096) :
    (convertBytes rom).length = 36 + 8 + (convertData rom).length := by
  rw [convertBytes, wavBytes_length]

theorem convert_length_eq_44_plus_samples_witness :
    romZero.length = 4096 ∧
      (convertBytes romZero).length = 36 + 8 + (convertData romZero).length :=
  ⟨romZero_length, convert_length_eq_44_plus_samples romZero romZero_length⟩

/-- C2 (counterexample): already on the all-zero 4096-byte ROM the
container length is not 44 + 8 + sample count. -/
theorem convert_length_not_52_plus_samples :
    (convertBytes romZero).length ≠ 44 + 8 + (convertData romZero).length := by
  rw [convertBytes, wavBytes_length]
  omega

/-- C9: decoding the fmt sub-chunk of the container produced by Convert
always yields format 1 (PCM), 1 channel, sample rate 44100 and bit
depth 8, whatever the ROM content. -/
theorem fmt_roundtrip (rom : List ℕ) :
    parseFmt (convertBytes rom) = (1, 1, 44100, 8) := by
  simp only [parseFmt, convertBytes_fmtChunk]
  decide

/-- C10: the block-align field of the fmt sub-chunk is the bitwise AND of
the channel count and the bit depth, 1 AND 8 = 0, not the conventional
channels times depth over 8 = 1. -/
theorem blockAlign_and_field (rom : List ℕ) :
    (fmtChunk (convertBytes rom)).getD 12 0
        + 2 ^ 8 * (fmtChunk (convertBytes rom)).getD 13 0 = 1 &&& 8 ∧
      (1 &&& 8 : ℕ) = 0 ∧ (1 &&& 8 : ℕ) ≠ 1 * 8 / 8 := by
  rw [convertBytes_fmtChunk]
  refine ⟨by decide, by decide, by decide⟩

theorem sqrt_three_gt : (1.73 : ℝ) < Real.sqrt 3 :=
  (Real.lt_sqrt (by norm_num)).mpr (by norm_num)

theorem sqrt_three_lt : Real.sqrt 3 < (1.7325 : ℝ) :=
  (Real.sqrt_lt' (by norm_num)).mpr (by norm_num)

theorem tone_getD (l : ℕ) (v : ℝ) (i : ℕ) (hi : i < l) :
    (tone l v).getD i 0 = toneSample l i v := by
  have hlen : i < (tone l v).length := by rw [tone_length]; exact hi
  rw [List.getD_eq_getElem _ _ hlen]
  simp [tone]

/-- C8 (amended): the synthesized table has exactly cycleLength samples
and byte i is the floor (truncation toward zero, as Go performs on this
non-negative float) of (sin(2 pi / cycleLength * i) * volume + 1) * 128,
not the rounding the claim states. -/
theorem tone_samples_floor (l : ℕ) (v : ℝ)
    (_hl : 0 < l) (h0 : 0 ≤ v) (h1 : v ≤ 1) :
    (tone l v).length = l ∧
      ∀ i, i < l →
        ((tone l v).getD i 0 : ℤ) =
          ⌊(Real.sin (2 * Real.pi / (l : ℝ) * (i : ℝ)) * v + 1) * 128⌋ := by
  refine ⟨tone_length l v, fun i hi => ?_⟩
  rw [tone_getD l v i hi, toneSample]
  set θ := 2 * Real.pi / (l : ℝ) * (i : ℝ) with hθ
  have key : 0 ≤ (Real.sin θ + 1) * v :=
    mul_nonneg (by linarith [Real.neg_one_le_sin θ]) h0
  have key2 : 0 ≤ Real.sin θ * v + v := by nlinarith [key]
  have hexpr : (0 : ℝ) ≤ (Real.sin θ * v + 1) * 128 := by nlinarith [key2, h1]
  exact Int.toNat_of_nonneg (Int.floor_nonneg.mpr hexpr)

theorem tone_samples_floor_witness :
    (0 : ℕ) < 6 ∧ (0 : ℝ) ≤ 1 ∧ (1 : ℝ) ≤ 1 ∧
      ((tone 6 1).length = 6 ∧
        ∀ i, i < 6 →
          ((tone 6 1).getD i 0 : ℤ) =
            ⌊(Real.sin (2 * Real.pi / (6 : ℝ) * (i : ℝ)) * 1 + 1) * 128⌋) :=
  ⟨by norm_num, by norm_num, le_refl 1,
   tone_samples_floor 6 1 (by norm_num) (by norm_num) (le_refl 1)⟩

/-- C8 (counterexample): at cycle length 6, volume 0.98 and index 1 the
table byte computed by the source is 236 while the rounded value the
claim asserts is 237. -/
theorem toneSpecRound_getD (l : ℕ) (v : ℝ) (i : ℕ) (hi : i < l) :
    (toneSpecRound l v).getD i 0 =
      round ((Real.sin (2 * Real.pi * (i : ℝ) / (l : ℝ)) * v + 1) * 128) := by
  have hlen : i < (toneSpecRound l v).length := by
    simpa only [toneSpecRound, List.length_map, List.length_range] using hi
  rw [List.getD_eq_getElem _ _ hlen]
  simp only [toneSpecRound, List.getElem_map, List.getElem_range]

theorem tone_ne_round_at_index_one :
    ((tone 6 zeroToneVolume).getD 1 0 : ℤ) ≠
      (toneSpecRound 6 zeroToneVolume).getD 1 0 := by
  have harg : 2 * Real.pi / ((6 : ℕ) : ℝ) * ((1 : ℕ) : ℝ) = Real.pi / 3 := by
    push_cast
    ring
  have hsin : Real.sin (2 * Real.pi / ((6 : ℕ) : ℝ) * ((1 : ℕ) : ℝ))
      = Real.sqrt 3 / 2 := by
    rw [harg, Real.sin_pi_div_three]
  have harg2 : 2 * Real.pi * ((1 : ℕ) : ℝ) / ((6 : ℕ) : ℝ) = Real.pi / 3 := by
    push_cast
    ring
  have hsin2 : Real.sin (2 * Real.pi * ((1 : ℕ) : ℝ) / ((6 : ℕ) : ℝ))
      = Real.sqrt 3 / 2 := by
    rw [harg2, Real.sin_pi_div_three]
  have h3a := sqrt_three_gt
  have h3b := sqrt_three_lt
  have hfloor :
      ⌊(Real.sqrt 3 / 2 * zeroToneVolume + 1) * 128⌋ = (236 : ℤ) := by
    rw [zeroToneVolume]
    apply Int.floor_eq_iff.mpr
    constructor
    · push_cast
      nlinarith [h3a]
    · push_cast
      nlinarith [h3b]
  have hleft : ((tone 6 zeroToneVolume).getD 1 0 : ℤ) = 236 := by
    rw [tone_getD 6 zeroToneVolume 1 (by norm_num), toneSample, hsin, hfloor]
    norm_num
  have hround :
      round ((Real.sqrt 3 / 2 * zeroToneVolume + 1) * 128) = (237 : ℤ) := by
    rw [zeroToneVolume, round_eq]
    apply Int.floor_eq_iff.mpr
    constructor
    · push_cast
      nlinarith [h3a]
    · push_cast
      nlinarith [h3b]
  have hright : (toneSpecRound 6 zeroToneVolume).getD 1 0 = (237 : ℤ) := by
    rw [toneSpecRound_getD 6 zeroToneVolume 1 (by norm_num), hsin2, hround]
  rw [hleft, hright]
  norm_num

end Supercharge
